import Mathlib

/-!
Shallow embedding of `docker2sh.py` (Dockerfile → shell-script translator).

The Reconstructor (`main`'s line-scanning loop) is embedded as a fold of
`stepLine` over the input lines; the Translator (`parse_instruction` and
`compress_and_b64`) is embedded as pure functions.  Python exceptions
(IndexError from `spl[i]`, IOError from `open`) are modelled with
`Except PyErr`; the file system and the external library calls
`bz2.compress` / `base64.b64encode` are parameters collected in `Ctx`.
-/

/-- Python whitespace for `str.strip` / regex `\s` (ASCII range). -/
def isWS (c : Char) : Bool :=
  c == ' ' || c == '\t' || c == '\n' || c == '\r' || c == '\x0b' || c == '\x0c'

/-- Regex `\w` (ASCII range, as used for Dockerfile keywords). -/
def isWordChar (c : Char) : Bool := c.isAlphanum || c == '_'

/-- Python `str.upper` on a single ASCII character. -/
def upperChar (c : Char) : Char := if c.isLower then Char.ofNat (c.toNat - 32) else c

/-- Python `str.upper` (ASCII model). -/
def pyUpper (s : String) : String := ⟨s.data.map upperChar⟩

/-- Python `str.lstrip()`. -/
def lstrip (s : String) : String := ⟨s.data.dropWhile isWS⟩

/-- List-level core of `rstrip_backslash`: `rstrip()` then drop one trailing `\`. -/
def rsbL (l : List Char) : List Char :=
  let r := l.reverse.dropWhile isWS
  if r.head? = some '\\' then r.tail.reverse else r.reverse

/-- `rstrip_backslash` from docker2sh.py: strip trailing whitespace, then one
trailing backslash if present. -/
def rstrip_backslash (s : String) : String := ⟨rsbL s.data⟩

/-- Regex `^.*\\\s*$` (line ends in a backslash, modulo trailing whitespace). -/
def contMatch (s : String) : Bool := (s.data.reverse.dropWhile isWS).head? == some '\\'

/-- Regex `^\s*#` (comment line). -/
def commentMatch (s : String) : Bool := (s.data.dropWhile isWS).head? == some '#'

/-- Regex `^\s*(\w+)\s+(.*)$`: returns the keyword group and the rest group.
Since `\w` and `\s` are disjoint, the backtracking regex is equivalent to
this greedy scan. -/
def instMatch (s : String) : Option (String × String) :=
  let l1 := s.data.dropWhile isWS
  let kw := l1.takeWhile isWordChar
  let l2 := l1.dropWhile isWordChar
  if kw = [] then none
  else if l2.takeWhile isWS = [] then none
  else some (⟨kw⟩, ⟨l2.dropWhile isWS⟩)

/-- Python `value.replace('\t', '')`. -/
def stripTabs (s : String) : String := ⟨s.data.filter (fun c => c ≠ '\t')⟩

/-- A logical instruction: the `cur_inst` dict `{instruction, value}`. -/
structure Inst where
  instruction : String
  value : String
deriving DecidableEq, Repr

/-- The scan state of `main`'s loop: accumulated `instructions`, the
`in_continuation` flag and the work-in-progress `cur_inst`.  (`cur_inst`
starts as the empty dict in Python; it is only read while
`in_continuation` is true, which guarantees it has been assigned.) -/
structure ScanState where
  instructions : List Inst
  in_continuation : Bool
  cur : Inst
deriving DecidableEq, Repr

/-- Tail of each loop iteration: re-evaluate `in_continuation` from the raw
line; if the line does not continue, strip tabs (unless `keeptabs`) and
append `cur_inst`. -/
def finalizeLine (keeptabs : Bool) (st : ScanState) (line : String) : ScanState :=
  if contMatch line then
    { st with in_continuation := true }
  else
    let v := if keeptabs then st.cur.value else stripTabs st.cur.value
    let fin : Inst := ⟨st.cur.instruction, v⟩
    { instructions := st.instructions ++ [fin], in_continuation := false, cur := fin }

/-- One iteration of `main`'s `for line in data` loop. -/
def stepLine (keeptabs : Bool) (st : ScanState) (line : String) : ScanState :=
  if commentMatch line then st
  else if st.in_continuation = false then
    match instMatch line with
    | none => st
    | some kr =>
      finalizeLine keeptabs { st with cur := ⟨pyUpper kr.1, rstrip_backslash kr.2⟩ } line
  else
    let piece := if st.cur.value ≠ "" then st.cur.value ++ rstrip_backslash line
                 else rstrip_backslash (lstrip line)
    finalizeLine keeptabs { st with cur := ⟨st.cur.instruction, piece⟩ } line

/-- Initial scan state (`instructions = []`, `in_continuation = False`). -/
def initState : ScanState := ⟨[], false, ⟨"", ""⟩⟩

/-- The Reconstructor: `main`'s scanning loop over all input lines. -/
def reconstruct (keeptabs : Bool) (data : List String) : List Inst :=
  (data.foldl (stepLine keeptabs) initState).instructions

/-! ## Translator (`parse_instruction` / `compress_and_b64`) -/

/-- A Python runtime failure surfacing from `parse_instruction`:
`indexError i` is an `IndexError` raised by the subscript `spl[i]` /
`args[i]`; `ioError path` is the `IOError`/`OSError` raised by
`open(path)` when `path` cannot be read. -/
inductive PyErr where
  | indexError : Nat → PyErr
  | ioError : String → PyErr
deriving DecidableEq, Repr

/-- The external collaborators of the translator: the file system (`open(p).read()`,
`none` meaning the read raises), and the library calls `bz2.compress` (on the
encoded bytes) and `b64encode(..).decode()`. -/
structure Ctx where
  fs : String → Option String
  bz2 : String → List Nat
  b64 : List Nat → String

/-- Python list subscript `l[i]` (raises `IndexError` when out of range). -/
def idx {α : Type} (l : List α) (i : Nat) : Except PyErr α :=
  match l.get? i with
  | some x => .ok x
  | none => .error (.indexError i)

/-- Python `open(path).read()`. -/
def pyOpen (ctx : Ctx) (path : String) : Except PyErr String :=
  match ctx.fs path with
  | some c => .ok c
  | none => .error (.ioError path)

/-- Helper for Python's no-argument `str.split()`: accumulates the current
token (reversed) and splits on whitespace runs, dropping empty tokens. -/
def pySplitAux (acc : List Char) : List Char → List String
  | [] => if acc = [] then [] else [⟨acc.reverse⟩]
  | c :: cs =>
    if isWS c then
      if acc = [] then pySplitAux [] cs else ⟨acc.reverse⟩ :: pySplitAux [] cs
    else pySplitAux (c :: acc) cs

/-- Python `str.split()` (no argument): split on whitespace runs, no empties. -/
def pySplit (s : String) : List String := pySplitAux [] s.data

/-- Helper for Python `str.split(sep)` with a one-character separator:
keeps empty fields, always returns at least one field. -/
def splitCharL (sep : Char) : List Char → List (List Char)
  | [] => [[]]
  | c :: cs =>
    if c = sep then [] :: splitCharL sep cs
    else
      match splitCharL sep cs with
      | t :: ts => (c :: t) :: ts
      | [] => [[c]]

/-- Python `str.split(sep)` for a one-character separator (e.g. `split(' ')`). -/
def splitChar (sep : Char) (s : String) : List String :=
  (splitCharL sep s.data).map (⟨·⟩)

instance {ε α : Type} [DecidableEq ε] [DecidableEq α] : DecidableEq (Except ε α) := fun x y =>
  match x, y with
  | .ok a, .ok b =>
    if h : a = b then .isTrue (by rw [h]) else .isFalse (by intro hc; cases hc; exact h rfl)
  | .error a, .error b =>
    if h : a = b then .isTrue (by rw [h]) else .isFalse (by intro hc; cases hc; exact h rfl)
  | .ok _, .error _ => .isFalse (by intro hc; cases hc)
  | .error _, .ok _ => .isFalse (by intro hc; cases hc)

/-- Python `val.replace('$', '\\$')`. -/
def escDollar (s : String) : String :=
  ⟨(s.data.map (fun c => if c = '$' then ['\\', '$'] else [c])).flatten⟩

/-- Python `s.replace(c, r, 1)` for a one-character pattern: replace the
first occurrence of `c` by `r`. -/
def replaceFirstC (c : Char) (r : List Char) : List Char → List Char
  | [] => []
  | x :: xs => if x = c then r ++ xs else x :: replaceFirstC c r xs

/-- One iteration of the RUN backtick loop:
`val.replace('`', '"$(', 1)` then `val.replace('`', ')"', 1)`. -/
def backtickStep (l : List Char) : List Char :=
  replaceFirstC '`' [')', '\"'] (replaceFirstC '`' ['\"', '$', '('] l)

/-- The RUN `while '`' in val:` loop, with explicit fuel.  Each iteration
removes at least one backtick, so fuel `l.count '`'` is enough
(see `backtickFuel_no_backtick`). -/
def backtickFuel : Nat → List Char → List Char
  | 0, l => l
  | n + 1, l => if '`' ∈ l then backtickFuel n (backtickStep l) else l

/-- The RUN backtick-replacement loop of `parse_instruction`. -/
def backtickAll (s : String) : String := ⟨backtickFuel (s.data.count '`') s.data⟩

/-- `os.path.dirname` (POSIX): the prefix up to the last `/`; kept as-is if
empty or all slashes, otherwise stripped of trailing slashes. -/
def dirname (p : String) : String :=
  let head := (p.data.reverse.dropWhile (fun c => c ≠ '/')).reverse
  if head.any (fun c => c ≠ '/') then ⟨(head.reverse.dropWhile (fun c => c = '/')).reverse⟩
  else ⟨head⟩

/-- `os.path.join` (POSIX, two arguments). -/
def pyJoin (a b : String) : String :=
  if b.data.head? = some '/' then b
  else if a.data = [] ∨ a.data.getLast? = some '/' then a ++ b
  else a ++ "/" ++ b

/-- `compress_and_b64` from docker2sh.py: split the COPY value, read the
source file (joined to `basepath` when given), bzip2-compress,
base64-encode, and emit the here-document fragment.  The `do`-sequencing
mirrors Python's evaluation order: `spl[0]`, then `open(...).read()`,
then `compress`/`b64encode`, then `spl[1]` in the `cat` header. -/
def compress_and_b64 (ctx : Ctx) (file : String) (basepath : Option String) :
    Except PyErr String := do
  let spl := pySplit file
  let s0 ← idx spl 0
  let contents ← match basepath with
    | some bp => pyOpen ctx (pyJoin bp s0)
    | none => pyOpen ctx s0
  let b64 := ctx.b64 (ctx.bz2 contents)
  let s1 ← idx spl 1
  .ok ("cat << __EOFF__ | base64 -d | bunzip2 > " ++ s1 ++ "\n" ++ b64 ++ "\n__EOFF__\n")

/-- The `cmds` list of valid Dockerfile instructions in `parse_instruction`. -/
def cmds : List String :=
  ["ADD", "ARG", "CMD", "COPY", "ENTRYPOINT", "ENV", "EXPOSE", "FROM",
   "HEALTHCHECK", "LABEL", "MAINTAINER", "ONBUILD", "RUN", "SHELL",
   "STOPSIGNAL", "USER", "VOLUME", "WORKDIR"]

/-- `parse_instruction` from docker2sh.py.  In the ADD branch the format
string `'wget -O %s %s\n' % (args[1], args[0])` evaluates `args[1]` first,
matching Python's left-to-right tuple evaluation. -/
def parse_instruction (ctx : Ctx) (inst : Inst) (dfile : String) : Except PyErr String :=
  let ins := pyUpper inst.instruction
  let val := inst.value
  if ins = "ADD" then do
    let v := escDollar val
    let args := splitChar ' ' v
    let a1 ← idx args 1
    let a0 ← idx args 0
    .ok ("wget -O " ++ a1 ++ " " ++ a0 ++ "\n")
  else if ins = "ARG" then .ok (val ++ "\n")
  else if ins = "ENV" then
    let v := if '=' ∈ val.data then val else (⟨replaceFirstC ' ' ['='] val.data⟩ : String)
    .ok ("export " ++ escDollar v ++ "\n")
  else if ins = "RUN" then .ok (escDollar (backtickAll val) ++ "\n")
  else if ins = "WORKDIR" then .ok ("mkdir -p " ++ val ++ " && cd " ++ val ++ "\n")
  else if ins = "COPY" then
    if '/' ∈ dfile.data then compress_and_b64 ctx val (some (dirname dfile))
    else compress_and_b64 ctx val none
  else if ins ∈ cmds then
    .ok ("#\n# " ++ ins ++ " not implemented\n# Instruction: " ++ ins ++ " " ++ val ++ "\n#\n")
  else .ok ""

/-- A file system with no readable files and trivial compression hooks. -/
def ctx0 : Ctx := ⟨fun _ => none, fun _ => [], fun _ => ""⟩

/-- A file system where only `src` exists (contents `hello`), with injective
toy stand-ins for the compression and encoding hooks. -/
def ctx1 : Ctx :=
  ⟨fun p => if p = "src" then some "hello" else none,
   fun s => s.data.map Char.toNat,
   fun l => ⟨l.map Char.ofNat⟩⟩

/-- Single-line reconstruction semantics: what one non-comment,
non-continued line contributes to the instruction list.  Used to state
order preservation of the Reconstructor (spec §8, first property). -/
def oneLine (keeptabs : Bool) (l : String) : Option Inst :=
  (instMatch l).map fun kr =>
    ⟨pyUpper kr.1, if keeptabs then rstrip_backslash kr.2 else stripTabs (rstrip_backslash kr.2)⟩

/-- A keyword shaped like an instruction-name token: non-empty, made of
word characters, with no lowercase letter left (uppercased). -/
def KwGoodStr (s : String) : Prop :=
  s ≠ "" ∧ ∀ c ∈ s.data, isWordChar c = true ∧ c.isLower = false

/-! ## Supporting lemmas -/

theorem string_mk_data (s : String) : (⟨s.data⟩ : String) = s := rfl

theorem except_bind_ok {ε α β : Type} (a : α) (f : α → Except ε β) :
    (Except.ok a >>= f) = f a := rfl

theorem except_bind_error {ε α β : Type} (e : ε) (f : α → Except ε β) :
    (Except.error e >>= f : Except ε β) = Except.error e := rfl

theorem replaceFirstC_of_not_mem (c : Char) (r : List Char) :
    ∀ l : List Char, c ∉ l → replaceFirstC c r l = l
  | [], _ => rfl
  | x :: xs, h => by
    have hx : x ≠ c := fun hc => h (hc ▸ List.mem_cons_self x xs)
    simp [replaceFirstC, hx, replaceFirstC_of_not_mem c r xs (fun hm => h (List.mem_cons_of_mem _ hm))]

theorem count_replaceFirstC (c : Char) (r : List Char) (hr : c ∉ r) :
    ∀ l : List Char, c ∈ l → (replaceFirstC c r l).count c + 1 = l.count c := by
  intro l
  induction l with
  | nil => intro h; cases h
  | cons x xs ih =>
    intro h
    by_cases hx : x = c
    · subst hx
      simp [replaceFirstC, List.count_append, List.count_eq_zero.mpr hr, List.count_cons_self]
    · have hm : c ∈ xs := by
        rcases List.mem_cons.mp h with h1 | h1
        · exact absurd h1.symm hx
        · exact h1
      simp [replaceFirstC, hx, List.count_cons_of_ne (fun hc => hx hc.symm), ih hm]

theorem mem_replaceFirstC (c : Char) (r : List Char) :
    ∀ l : List Char, ∀ x, x ∈ replaceFirstC c r l → x ∈ r ∨ x ∈ l := by
  intro l
  induction l with
  | nil => intro x h; cases h
  | cons y ys ih =>
    intro x h
    by_cases hy : y = c
    · simp only [replaceFirstC, if_pos hy] at h
      rcases List.mem_append.mp h with h1 | h1
      · exact Or.inl h1
      · exact Or.inr (List.mem_cons_of_mem _ h1)
    · simp only [replaceFirstC, if_neg hy] at h
      rcases List.mem_cons.mp h with h1 | h1
      · exact Or.inr (h1 ▸ List.mem_cons_self y ys)
      · rcases ih x h1 with h2 | h2
        · exact Or.inl h2
        · exact Or.inr (List.mem_cons_of_mem _ h2)

theorem backtickStep_count {l : List Char} (h : '`' ∈ l) :
    (backtickStep l).count '`' < l.count '`' := by
  have hr1 : '`' ∉ ['\"', '$', '('] := by decide
  have hr2 : '`' ∉ [')', '\"'] := by decide
  have h1 := count_replaceFirstC '`' ['\"', '$', '('] hr1 l h
  set m := replaceFirstC '`' ['\"', '$', '('] l with hm
  by_cases h2 : '`' ∈ m
  · have h3 := count_replaceFirstC '`' [')', '\"'] hr2 m h2
    unfold backtickStep
    rw [← hm]
    omega
  · unfold backtickStep
    rw [← hm, replaceFirstC_of_not_mem _ _ m h2]
    omega

theorem backtickFuel_no_backtick :
    ∀ (n : Nat) (l : List Char), l.count '`' ≤ n → '`' ∉ backtickFuel n l := by
  intro n
  induction n with
  | zero =>
    intro l h
    have h0 : l.count '`' = 0 := Nat.le_zero.mp h
    exact fun hm => (List.count_eq_zero.mp h0) hm
  | succ n ih =>
    intro l h
    by_cases hm : '`' ∈ l
    · have hlt := backtickStep_count hm
      have : (backtickStep l).count '`' ≤ n := by omega
      simpa [backtickFuel, hm] using ih (backtickStep l) this
    · simp only [backtickFuel, if_neg hm]
      exact hm

theorem backtickAll_no_backtick (s : String) : '`' ∉ (backtickAll s).data :=
  backtickFuel_no_backtick _ _ le_rfl

theorem mem_escDollar (s : String) (x : Char) (h : x ∈ (escDollar s).data) :
    x = '\\' ∨ x = '$' ∨ x ∈ s.data := by
  simp only [escDollar, List.mem_flatten, List.mem_map] at h
  obtain ⟨l, ⟨a, ha, hfa⟩, hx⟩ := h
  by_cases hc : a = '$'
  · subst hfa
    simp [hc] at hx
    rcases hx with hx | hx
    · exact Or.inl hx
    · exact Or.inr (Or.inl hx)
  · subst hfa
    simp [hc] at hx
    exact Or.inr (Or.inr (hx ▸ ha))

theorem escDollar_of_not_mem (s : String) (h : '$' ∉ s.data) : escDollar s = s := by
  unfold escDollar
  have : ∀ l : List Char, '$' ∉ l →
      (l.map (fun c => if c = '$' then ['\\', '$'] else [c])).flatten = l := by
    intro l
    induction l with
    | nil => intro _; rfl
    | cons x xs ih =>
      intro hl
      have hx : x ≠ '$' := fun hc => hl (hc ▸ List.mem_cons_self x xs)
      have hxs : '$' ∉ xs := fun hm => hl (List.mem_cons_of_mem _ hm)
      simp [hx, ih hxs]
  rw [this s.data h]

theorem splitCharL_of_not_mem (sep : Char) :
    ∀ l : List Char, sep ∉ l → splitCharL sep l = [l] := by
  intro l
  induction l with
  | nil => intro _; rfl
  | cons x xs ih =>
    intro h
    have hx : x ≠ sep := fun hc => h (hc ▸ List.mem_cons_self x xs)
    have hxs : sep ∉ xs := fun hm => h (List.mem_cons_of_mem _ hm)
    simp [splitCharL, hx, ih hxs]

theorem parse_ADD_eq (ctx : Ctx) (val dfile : String) :
    parse_instruction ctx ⟨"ADD", val⟩ dfile =
      (idx (splitChar ' ' (escDollar val)) 1 >>= fun a1 =>
       idx (splitChar ' ' (escDollar val)) 0 >>= fun a0 =>
       Except.ok ("wget -O " ++ a1 ++ " " ++ a0 ++ "\n")) := rfl

theorem parse_ENV_eq (ctx : Ctx) (val dfile : String) :
    parse_instruction ctx ⟨"ENV", val⟩ dfile =
      .ok ("export " ++
        escDollar (if '=' ∈ val.data then val else (⟨replaceFirstC ' ' ['='] val.data⟩ : String))
        ++ "\n") := rfl

theorem parse_RUN_eq (ctx : Ctx) (val dfile : String) :
    parse_instruction ctx ⟨"RUN", val⟩ dfile =
      .ok (escDollar (backtickAll val) ++ "\n") := rfl

theorem parse_COPY_eq (ctx : Ctx) (val dfile : String) :
    parse_instruction ctx ⟨"COPY", val⟩ dfile =
      (if '/' ∈ dfile.data then compress_and_b64 ctx val (some (dirname dfile))
       else compress_and_b64 ctx val none) := rfl

/-! ## Claim theorems -/

/-- Claim C1, counterexample: on `RUN` with value ``echo `date` `` the
translator does NOT output `echo "$(date)"\n`; the `$`-escaping runs after
the backtick replacement, so the inserted `$` is itself escaped and the
actual output is `echo "\$(date)"\n`. -/
theorem run_backtick_example_cex :
    parse_instruction ctx0 ⟨"RUN", "echo `date`"⟩ "Dockerfile" = .ok "echo \"\\$(date)\"\n"
    ∧ ("echo \"\\$(date)\"\n" : String) ≠ "echo \"$(date)\"\n" := by decide

/-- Claim C1 (amended): translating a RUN instruction replaces each matched
pair of backtick delimiters, left to right, with `"$(` and `)"` (all
backticks are consumed), and afterwards escapes every dollar sign —
including the ones just inserted.  For ``RUN echo `date` `` the output is
exactly `echo "\$(date)"` followed by a newline. -/
theorem run_backtick_translation :
    (∀ (ctx : Ctx) (val dfile : String),
      parse_instruction ctx ⟨"RUN", val⟩ dfile = .ok (escDollar (backtickAll val) ++ "\n")
      ∧ '`' ∉ (backtickAll val).data)
    ∧ parse_instruction ctx0 ⟨"RUN", "echo `date`"⟩ "Dockerfile" = .ok "echo \"\\$(date)\"\n"
    ∧ parse_instruction ctx0 ⟨"RUN", "a `b` c `d`"⟩ "Dockerfile" =
        .ok "a \"\\$(b)\" c \"\\$(d)\"\n" :=
  ⟨fun ctx val dfile => ⟨parse_RUN_eq ctx val dfile, backtickAll_no_backtick val⟩,
   by decide, by decide⟩

/-- Claim C2, counterexample: an ADD value of three whitespace-separated
tokens does not fail: the code splits on single spaces and only reads
fields 0 and 1, so `ADD a b c` succeeds with output `wget -O b a\n`. -/
theorem add_three_tokens_no_failure :
    (pySplit "a b c").length = 3
    ∧ parse_instruction ctx0 ⟨"ADD", "a b c"⟩ "Dockerfile" = .ok "wget -O b a\n" := by decide

/-- Claim C2 (amended): ADD splits the `$`-escaped value on single space
characters, keeping empty fields.  The translation propagates a fatal
indexing failure exactly when this split yields fewer than two fields —
in particular whenever the value contains no space character; with at
least two fields it returns `wget -O <field1> <field0>\n` (extra fields
are ignored). -/
theorem add_translation (ctx : Ctx) (dfile val : String) :
    ((splitChar ' ' (escDollar val)).length ≤ 1 →
      parse_instruction ctx ⟨"ADD", val⟩ dfile = .error (.indexError 1))
    ∧ (∀ a0 a1 rest, splitChar ' ' (escDollar val) = a0 :: a1 :: rest →
      parse_instruction ctx ⟨"ADD", val⟩ dfile = .ok ("wget -O " ++ a1 ++ " " ++ a0 ++ "\n"))
    ∧ (' ' ∉ val.data →
      parse_instruction ctx ⟨"ADD", val⟩ dfile = .error (.indexError 1)) := by
  have key : (splitChar ' ' (escDollar val)).length ≤ 1 →
      parse_instruction ctx ⟨"ADD", val⟩ dfile = .error (.indexError 1) := by
    intro hlen
    rw [parse_ADD_eq]
    rcases h : splitChar ' ' (escDollar val) with _ | ⟨a, l⟩
    · rfl
    · rcases l with _ | ⟨b, l'⟩
      · rfl
      · rw [h] at hlen; simp at hlen
  refine ⟨key, ?_, ?_⟩
  · intro a0 a1 rest h
    rw [parse_ADD_eq, h]
    rfl
  · intro hsp
    apply key
    have h1 : ' ' ∉ (escDollar val).data := by
      intro hm
      rcases mem_escDollar val ' ' hm with h2 | h2 | h2
      · exact absurd h2 (by decide)
      · exact absurd h2 (by decide)
      · exact hsp h2
    rw [splitChar, splitCharL_of_not_mem ' ' (escDollar val).data h1]
    simp

/-- Claim C2, witness. -/
theorem add_translation_witness :
    parse_instruction ctx0 ⟨"ADD", "a b"⟩ "Dockerfile" = .ok "wget -O b a\n" :=
  (add_translation ctx0 "Dockerfile" "a b").2.1 "a" "b" [] (by decide)

/-- Claim C6: on the two lines `FROM ubuntu\` and `:18.04` the
Reconstructor produces exactly one LogicalInstruction, keyword `FROM`,
value `ubuntu:18.04`, with neither a backslash nor a newline in the value
(in both tab-handling modes). -/
theorem continuation_joining :
    reconstruct false ["FROM ubuntu\\", ":18.04"] = [⟨"FROM", "ubuntu:18.04"⟩]
    ∧ reconstruct true ["FROM ubuntu\\", ":18.04"] = [⟨"FROM", "ubuntu:18.04"⟩]
    ∧ '\\' ∉ ("ubuntu:18.04" : String).data
    ∧ '\n' ∉ ("ubuntu:18.04" : String).data := by decide

/-- Claim C7: ENV with no `=` in the value has its first space replaced by
`=`; a value that already contains `=` gets no substitution (and, having
no `$`, is emitted verbatim).  Both `FOO bar` and `FOO=bar` produce
exactly `export FOO=bar\n`. -/
theorem env_translation (ctx : Ctx) (dfile : String) :
    parse_instruction ctx ⟨"ENV", "FOO bar"⟩ dfile = .ok "export FOO=bar\n"
    ∧ parse_instruction ctx ⟨"ENV", "FOO=bar"⟩ dfile = .ok "export FOO=bar\n"
    ∧ (∀ v : String, '=' ∈ v.data → '$' ∉ v.data →
        parse_instruction ctx ⟨"ENV", v⟩ dfile = .ok ("export " ++ v ++ "\n"))
    ∧ (∀ v : String, '=' ∉ v.data → '$' ∉ v.data →
        parse_instruction ctx ⟨"ENV", v⟩ dfile =
          .ok ("export " ++ (⟨replaceFirstC ' ' ['='] v.data⟩ : String) ++ "\n")) := by
  refine ⟨rfl, rfl, ?_, ?_⟩
  · intro v hv hd
    rw [parse_ENV_eq, if_pos hv, escDollar_of_not_mem v hd]
  · intro v hv hd
    have hne : '$' ∉ ((⟨replaceFirstC ' ' ['='] v.data⟩ : String)).data := by
      intro hm
      rcases mem_replaceFirstC ' ' ['='] v.data '$' hm with h1 | h1
      · exact absurd h1 (by decide)
      · exact hd h1
    rw [parse_ENV_eq, if_neg hv, escDollar_of_not_mem _ hne]

/-- Claim C7, witness. -/
theorem env_translation_witness :
    parse_instruction ctx0 ⟨"ENV", "A=B"⟩ "Dockerfile" = .ok ("export " ++ "A=B" ++ "\n") :=
  (env_translation ctx0 "Dockerfile").2.2.1 "A=B" (by decide) (by decide)

theorem idx_zero {α : Type} (a : α) (l : List α) : idx (a :: l) 0 = .ok a := rfl

theorem idx_one {α : Type} (a b : α) (l : List α) : idx (a :: b :: l) 1 = .ok b := rfl

theorem idx_one_single {α : Type} (a : α) : idx [a] 1 = .error (.indexError 1) := rfl

theorem idx_zero_nil {α : Type} : idx ([] : List α) 0 = .error (.indexError 0) := rfl

theorem pyOpen_some (ctx : Ctx) (p c : String) (hfs : ctx.fs p = some c) :
    pyOpen ctx p = .ok c := by simp [pyOpen, hfs]

theorem pyOpen_none (ctx : Ctx) (p : String) (hfs : ctx.fs p = none) :
    pyOpen ctx p = .error (.ioError p) := by simp [pyOpen, hfs]

theorem compress_and_b64_none_eq (ctx : Ctx) (file : String) :
    compress_and_b64 ctx file none =
      (idx (pySplit file) 0 >>= fun s0 =>
       pyOpen ctx s0 >>= fun contents =>
       idx (pySplit file) 1 >>= fun s1 =>
       Except.ok ("cat << __EOFF__ | base64 -d | bunzip2 > " ++ s1 ++ "\n"
                  ++ ctx.b64 (ctx.bz2 contents) ++ "\n__EOFF__\n")) := rfl

theorem compress_and_b64_some_eq (ctx : Ctx) (file bp : String) :
    compress_and_b64 ctx file (some bp) =
      (idx (pySplit file) 0 >>= fun s0 =>
       pyOpen ctx (pyJoin bp s0) >>= fun contents =>
       idx (pySplit file) 1 >>= fun s1 =>
       Except.ok ("cat << __EOFF__ | base64 -d | bunzip2 > " ++ s1 ++ "\n"
                  ++ ctx.b64 (ctx.bz2 contents) ++ "\n__EOFF__\n")) := rfl

/-- Claim C3: COPY with a two-token value `<source> <dest>` reads the
source file — resolved against the Dockerfile's directory when the
Dockerfile path contains a `/`, against the current directory otherwise —
compresses it, base64-encodes it, and emits the three-line here-document
fragment; when the file cannot be read, the I/O error propagates. -/
theorem copy_translation (ctx : Ctx) (src dest val dfile c : String)
    (hsplit : pySplit val = [src, dest]) :
    (ctx.fs (if '/' ∈ dfile.data then pyJoin (dirname dfile) src else src) = some c →
      parse_instruction ctx ⟨"COPY", val⟩ dfile =
        .ok ("cat << __EOFF__ | base64 -d | bunzip2 > " ++ dest ++ "\n"
             ++ ctx.b64 (ctx.bz2 c) ++ "\n__EOFF__\n"))
    ∧ (ctx.fs (if '/' ∈ dfile.data then pyJoin (dirname dfile) src else src) = none →
      parse_instruction ctx ⟨"COPY", val⟩ dfile =
        .error (.ioError (if '/' ∈ dfile.data then pyJoin (dirname dfile) src else src))) := by
  by_cases hd : '/' ∈ dfile.data
  · constructor
    · intro hfs
      rw [if_pos hd] at hfs
      rw [parse_COPY_eq, if_pos hd, compress_and_b64_some_eq, hsplit]
      simp only [idx_zero, idx_one, except_bind_ok, pyOpen_some ctx _ c hfs]
    · intro hfs
      rw [if_pos hd] at hfs
      rw [parse_COPY_eq, if_pos hd, compress_and_b64_some_eq, hsplit]
      simp only [idx_zero, except_bind_ok, pyOpen_none ctx _ hfs, except_bind_error, if_pos hd]
  · constructor
    · intro hfs
      rw [if_neg hd] at hfs
      rw [parse_COPY_eq, if_neg hd, compress_and_b64_none_eq, hsplit]
      simp only [idx_zero, idx_one, except_bind_ok, pyOpen_some ctx _ c hfs]
    · intro hfs
      rw [if_neg hd] at hfs
      rw [parse_COPY_eq, if_neg hd, compress_and_b64_none_eq, hsplit]
      simp only [idx_zero, except_bind_ok, pyOpen_none ctx _ hfs, except_bind_error, if_neg hd]

/-- Claim C3, witness. -/
theorem copy_translation_witness :
    parse_instruction ctx1 ⟨"COPY", "src dest"⟩ "Dockerfile" =
      .ok ("cat << __EOFF__ | base64 -d | bunzip2 > " ++ "dest" ++ "\n"
           ++ ctx1.b64 (ctx1.bz2 "hello") ++ "\n__EOFF__\n")
    ∧ parse_instruction ctx0 ⟨"COPY", "src dest"⟩ "Dockerfile" = .error (.ioError "src") :=
  ⟨(copy_translation ctx1 "src" "dest" "src dest" "Dockerfile" "hello" (by decide)).1 (by decide),
   (copy_translation ctx0 "src" "dest" "src dest" "Dockerfile" "" (by decide)).2 (by decide)⟩

/-- Claim C10, counterexample: a COPY value with a single token does not
always fail with an indexing error — when the file named by the token
cannot be read, the I/O error propagates first, so the failure is an
`ioError`, not an `indexError`. -/
theorem copy_short_value_io_failure :
    (pySplit "src").length = 1
    ∧ parse_instruction ctx0 ⟨"COPY", "src"⟩ "Dockerfile" = .error (.ioError "src")
    ∧ PyErr.ioError "src" ≠ .indexError 0
    ∧ PyErr.ioError "src" ≠ .indexError 1 := by decide

/-- Claim C10 (amended): for a COPY value with fewer than two
whitespace-separated tokens — with zero tokens, translation fails with an
uncaught indexing error at the source-token lookup (`spl[0]`), before any
file is read; with one token whose file is readable, it fails with an
uncaught indexing error (`spl[1]`) when building the here-document header,
after the file has been read and compressed.  (With one token and an
unreadable file, the I/O error propagates instead, see the
counterexample.) -/
theorem copy_short_value_translation (ctx : Ctx) (val dfile : String) :
    (pySplit val = [] →
      parse_instruction ctx ⟨"COPY", val⟩ dfile = .error (.indexError 0))
    ∧ (∀ t c, pySplit val = [t] →
        ctx.fs (if '/' ∈ dfile.data then pyJoin (dirname dfile) t else t) = some c →
        parse_instruction ctx ⟨"COPY", val⟩ dfile = .error (.indexError 1)) := by
  constructor
  · intro h
    by_cases hd : '/' ∈ dfile.data
    · rw [parse_COPY_eq, if_pos hd, compress_and_b64_some_eq, h]; rfl
    · rw [parse_COPY_eq, if_neg hd, compress_and_b64_none_eq, h]; rfl
  · intro t c h hfs
    by_cases hd : '/' ∈ dfile.data
    · rw [if_pos hd] at hfs
      rw [parse_COPY_eq, if_pos hd, compress_and_b64_some_eq, h]
      simp only [idx_zero, except_bind_ok, pyOpen_some ctx _ c hfs, idx_one_single,
        except_bind_error]
    · rw [if_neg hd] at hfs
      rw [parse_COPY_eq, if_neg hd, compress_and_b64_none_eq, h]
      simp only [idx_zero, except_bind_ok, pyOpen_some ctx _ c hfs, idx_one_single,
        except_bind_error]

/-- Claim C10, witness. -/
theorem copy_short_value_translation_witness :
    parse_instruction ctx1 ⟨"COPY", ""⟩ "Dockerfile" = .error (.indexError 0)
    ∧ parse_instruction ctx1 ⟨"COPY", "src"⟩ "Dockerfile" = .error (.indexError 1) :=
  ⟨(copy_short_value_translation ctx1 "" "Dockerfile").1 (by decide),
   (copy_short_value_translation ctx1 "src" "Dockerfile").2 "src" "hello" (by decide) (by decide)⟩

theorem stepLine_comment (kt : Bool) (st : ScanState) (c : String)
    (h : commentMatch c = true) : stepLine kt st c = st := by
  simp [stepLine, h]

/-- Claim C8: a comment line is a no-op of the scan — inserting it at any
position (inside or outside a continuation) leaves the reconstructed
sequence unchanged, and it neither interrupts a continuation nor clears
the in-progress state (the whole scan state is untouched). -/
theorem comment_skipping (kt : Bool) (pre post : List String) (c : String)
    (h : commentMatch c = true) :
    reconstruct kt (pre ++ c :: post) = reconstruct kt (pre ++ post)
    ∧ ∀ st : ScanState, stepLine kt st c = st := by
  refine ⟨?_, fun st => stepLine_comment kt st c h⟩
  unfold reconstruct
  rw [List.foldl_append, List.foldl_append, List.foldl_cons, stepLine_comment kt _ c h]

/-- Claim C8, witness. -/
theorem comment_skipping_witness :
    reconstruct false (["FROM a"] ++ "# hi" :: ["RUN b"]) = reconstruct false (["FROM a"] ++ ["RUN b"]) :=
  (comment_skipping false ["FROM a"] ["RUN b"] "# hi" (by decide)).1

theorem stepLine_cont_instructions (kt : Bool) (st : ScanState) (l : String)
    (h : contMatch l = true) : (stepLine kt st l).instructions = st.instructions := by
  unfold stepLine
  by_cases hc : commentMatch l = true
  · simp [hc]
  · simp only [Bool.not_eq_true] at hc
    by_cases hin : st.in_continuation = false
    · simp only [hc, Bool.false_eq_true, if_false, if_pos hin]
      cases hm : instMatch l with
      | none => rfl
      | some kr => simp [finalizeLine, h]
    · simp [hc, hin, finalizeLine, h]

/-- Claim C9: a final input line that ends in a continuation backslash
never contributes an instruction — the in-progress instruction is
silently dropped (and `reconstruct` is total, so no error is reported). -/
theorem unterminated_continuation_dropped (kt : Bool) (data : List String) (l : String)
    (h : contMatch l = true) :
    reconstruct kt (data ++ [l]) = reconstruct kt data := by
  unfold reconstruct
  rw [List.foldl_append, List.foldl_cons, List.foldl_nil]
  exact stepLine_cont_instructions kt _ l h

/-- Claim C9, witness. -/
theorem unterminated_continuation_dropped_witness :
    reconstruct false (["FROM a"] ++ ["RUN x\\"]) = reconstruct false ["FROM a"] :=
  unterminated_continuation_dropped false ["FROM a"] "RUN x\\" (by decide)

theorem oneLine_none (kt : Bool) (l : String) (hm : instMatch l = none) :
    oneLine kt l = none := by simp [oneLine, hm]

theorem oneLine_some (kt : Bool) (l : String) (kr : String × String)
    (hm : instMatch l = some kr) :
    oneLine kt l = some ⟨pyUpper kr.1,
      if kt then rstrip_backslash kr.2 else stripTabs (rstrip_backslash kr.2)⟩ := by
  simp [oneLine, hm]

theorem foldl_no_cont (kt : Bool) :
    ∀ (data : List String) (st : ScanState),
      st.in_continuation = false →
      (∀ l ∈ data, commentMatch l = false ∧ contMatch l = false) →
      (data.foldl (stepLine kt) st).instructions =
        st.instructions ++ data.filterMap (oneLine kt) := by
  intro data
  induction data with
  | nil => intro st _ _; simp
  | cons l ls ih =>
    intro st h1 h2
    obtain ⟨hcm, hct⟩ := h2 l (List.mem_cons_self l ls)
    have h2' : ∀ x ∈ ls, commentMatch x = false ∧ contMatch x = false :=
      fun x hx => h2 x (List.mem_cons_of_mem l hx)
    rw [List.foldl_cons]
    cases hm : instMatch l with
    | none =>
      have hstep : stepLine kt st l = st := by
        simp [stepLine, hcm, h1, hm]
      rw [hstep, ih st h1 h2', List.filterMap_cons_none (oneLine_none kt l hm)]
    | some kr =>
      have hstep : stepLine kt st l =
          { instructions := st.instructions ++ [⟨pyUpper kr.1,
              if kt then rstrip_backslash kr.2 else stripTabs (rstrip_backslash kr.2)⟩],
            in_continuation := false,
            cur := ⟨pyUpper kr.1,
              if kt then rstrip_backslash kr.2 else stripTabs (rstrip_backslash kr.2)⟩ } := by
        simp [stepLine, hcm, h1, hm, finalizeLine, hct]
      rw [hstep, ih _ rfl h2', List.filterMap_cons_some (oneLine_some kt l kr hm)]
      simp

theorem length_filterMap_oneLine (kt : Bool) :
    ∀ data : List String,
      (data.filterMap (oneLine kt)).length
        = (data.filter (fun l => (instMatch l).isSome)).length := by
  intro data
  induction data with
  | nil => rfl
  | cons l ls ih =>
    cases hm : instMatch l with
    | none =>
      rw [List.filterMap_cons_none (oneLine_none kt l hm)]
      simp [List.filter_cons, hm, ih]
    | some kr =>
      rw [List.filterMap_cons_some (oneLine_some kt l kr hm)]
      simp [List.filter_cons, hm, ih]

/-- Claim C5: on input with no comment lines and no continuation lines the
Reconstructor is exactly the per-line map `oneLine` filtered over the
matching lines — in particular the output length equals the number of
lines matching the instruction pattern, and the output order is the input
order. -/
theorem no_continuation_reconstruction (kt : Bool) (data : List String)
    (h : ∀ l ∈ data, commentMatch l = false ∧ contMatch l = false) :
    reconstruct kt data = data.filterMap (oneLine kt)
    ∧ (reconstruct kt data).length
        = (data.filter (fun l => (instMatch l).isSome)).length := by
  have h1 : reconstruct kt data = data.filterMap (oneLine kt) := by
    unfold reconstruct
    rw [foldl_no_cont kt data initState rfl h]
    rfl
  exact ⟨h1, by rw [h1, length_filterMap_oneLine]⟩

/-- Claim C5, witness. -/
theorem no_continuation_reconstruction_witness :
    reconstruct false ["FROM a", ":x", "RUN b"]
        = (["FROM a", ":x", "RUN b"].filterMap (oneLine false))
    ∧ (reconstruct false ["FROM a", ":x", "RUN b"]).length
        = (["FROM a", ":x", "RUN b"].filter (fun l => (instMatch l).isSome)).length :=
  no_continuation_reconstruction false ["FROM a", ":x", "RUN b"] (by decide)

theorem isLower_toNat {c : Char} (h : c.isLower = true) : 97 ≤ c.toNat ∧ c.toNat ≤ 122 := by
  unfold Char.isLower at h
  simp only [Bool.and_eq_true, decide_eq_true_eq, ge_iff_le] at h
  obtain ⟨h1, h2⟩ := h
  exact ⟨UInt32.le_toNat_of_le (by decide) h1, UInt32.toNat_le_of_le (by decide) h2⟩

theorem upperChar_spec (c : Char) (h : isWordChar c = true) :
    isWordChar (upperChar c) = true ∧ (upperChar c).isLower = false := by
  unfold upperChar
  by_cases hl : c.isLower = true
  · obtain ⟨h1, h2⟩ := isLower_toNat hl
    rw [if_pos hl]
    interval_cases hn : c.toNat <;> decide
  · rw [if_neg hl]
    exact ⟨h, by simpa using hl⟩

theorem dropWhile_append_of_ne_nil {α : Type} (p : α → Bool) :
    ∀ (xs ys : List α), xs.dropWhile p ≠ [] →
      (xs ++ ys).dropWhile p = xs.dropWhile p ++ ys := by
  intro xs
  induction xs with
  | nil => intro ys h; exact absurd rfl h
  | cons x xs ih =>
    intro ys h
    by_cases hp : p x = true
    · rw [List.dropWhile_cons_of_pos hp] at h
      rw [List.cons_append, List.dropWhile_cons_of_pos hp, List.dropWhile_cons_of_pos hp]
      exact ih ys h
    · have hp' : p x = false := by simpa using hp
      rw [List.cons_append, List.dropWhile_cons_of_neg (by simp [hp']),
        List.dropWhile_cons_of_neg (by simp [hp'])]
      simp

theorem mem_rsbL_of_suffix {l2 l1 : List Char} (h : l2 <:+ l1) :
    ∀ c ∈ rsbL l2, c ∈ rsbL l1 := by
  obtain ⟨p, hp⟩ := h
  subst hp
  intro c hc
  rcases hr2 : l2.reverse.dropWhile isWS with _ | ⟨x, rs⟩
  · simp [rsbL, hr2] at hc
  · have hne : l2.reverse.dropWhile isWS ≠ [] := by rw [hr2]; simp
    have hd : (l2.reverse ++ p.reverse).dropWhile isWS = x :: (rs ++ p.reverse) := by
      rw [dropWhile_append_of_ne_nil isWS _ _ hne, hr2, List.cons_append]
    by_cases hx : x = '\\'
    · subst hx
      have h2 : rsbL l2 = rs.reverse := by simp [rsbL, hr2]
      have h1 : rsbL (p ++ l2) = p ++ rs.reverse := by
        unfold rsbL
        rw [List.reverse_append, hd]
        simp
      rw [h1]
      rw [h2] at hc
      exact List.mem_append_right p hc
    · have h2 : rsbL l2 = rs.reverse ++ [x] := by simp [rsbL, hr2, hx]
      have h1 : rsbL (p ++ l2) = p ++ (rs.reverse ++ [x]) := by
        unfold rsbL
        rw [List.reverse_append, hd]
        simp [hx]
      rw [h1]
      rw [h2] at hc
      exact List.mem_append_right p hc

theorem not_bs_rsbL_of_suffix {l2 l1 : List Char} (h : l2 <:+ l1)
    (hbs : '\\' ∉ rsbL l1) : '\\' ∉ rsbL l2 :=
  fun hm => hbs (mem_rsbL_of_suffix h '\\' hm)

theorem tab_not_mem_stripTabs (s : String) : '\t' ∉ (stripTabs s).data := by
  intro hm
  have := List.of_mem_filter hm
  simp at this

theorem mem_of_mem_stripTabs {c : Char} {s : String} (h : c ∈ (stripTabs s).data) :
    c ∈ s.data := List.mem_of_mem_filter h

theorem instMatch_spec (s : String) (kr : String × String) (hm : instMatch s = some kr) :
    kr.1.data ≠ [] ∧ (∀ c ∈ kr.1.data, isWordChar c = true) ∧ kr.2.data <:+ s.data := by
  simp only [instMatch] at hm
  split_ifs at hm with hkw hsp
  obtain ⟨hk, hr⟩ := Prod.mk.injEq .. ▸ Option.some.inj hm
  constructor
  · rw [← hk]
    exact hkw
  constructor
  · intro c hc
    rw [← hk] at hc
    exact List.mem_takeWhile_imp hc
  · rw [← hr]
    exact ((List.dropWhile_suffix isWS).trans (List.dropWhile_suffix isWordChar)).trans
      (List.dropWhile_suffix isWS)

theorem kwGood_pyUpper (w : List Char) (hne : w ≠ []) (hw : ∀ c ∈ w, isWordChar c = true) :
    KwGoodStr (pyUpper ⟨w⟩) := by
  constructor
  · intro heq
    apply hne
    have hd : (pyUpper (⟨w⟩ : String)).data = [] := by rw [heq]
    have : w.map upperChar = [] := hd
    exact List.map_eq_nil_iff.mp this
  · intro c hc
    have : c ∈ w.map upperChar := hc
    obtain ⟨d, hd, hdc⟩ := List.mem_map.mp this
    rw [← hdc]
    exact upperChar_spec d (hw d hd)

theorem foldl_stepLine_inv (kt : Bool) (I : ScanState → Prop) :
    ∀ (data : List String) (st : ScanState),
      I st → (∀ s l, l ∈ data → I s → I (stepLine kt s l)) →
      I (data.foldl (stepLine kt) st) := by
  intro data
  induction data with
  | nil => intro st h _; simpa using h
  | cons l ls ih =>
    intro st h hstep
    rw [List.foldl_cons]
    exact ih _ (hstep st l (List.mem_cons_self l ls) h)
      (fun s x hx hs => hstep s x (List.mem_cons_of_mem l hx) hs)

theorem finalizeLine_kw_tab (kt : Bool) (st : ScanState) (l : String)
    (hkw : KwGoodStr st.cur.instruction)
    (hins : ∀ i ∈ st.instructions,
      KwGoodStr i.instruction ∧ (kt = false → '\t' ∉ i.value.data)) :
    (∀ i ∈ (finalizeLine kt st l).instructions,
        KwGoodStr i.instruction ∧ (kt = false → '\t' ∉ i.value.data))
    ∧ ((finalizeLine kt st l).in_continuation = true →
        KwGoodStr (finalizeLine kt st l).cur.instruction) := by
  simp only [finalizeLine]
  by_cases hc : contMatch l = true
  · simp only [if_pos hc]
    exact ⟨hins, fun _ => hkw⟩
  · simp only [Bool.not_eq_true] at hc
    simp only [hc, Bool.false_eq_true, if_false]
    constructor
    · intro i hi
      simp only [List.mem_append, List.mem_singleton] at hi
      rcases hi with hi | hi
      · exact hins i hi
      · subst hi
        refine ⟨hkw, fun hkt => ?_⟩
        subst hkt
        simp only [Bool.false_eq_true, if_false]
        exact tab_not_mem_stripTabs _
    · intro _
      exact hkw

theorem stepLine_kw_tab (kt : Bool) (st : ScanState) (l : String)
    (h : (∀ i ∈ st.instructions,
            KwGoodStr i.instruction ∧ (kt = false → '\t' ∉ i.value.data))
         ∧ (st.in_continuation = true → KwGoodStr st.cur.instruction)) :
    (∀ i ∈ (stepLine kt st l).instructions,
        KwGoodStr i.instruction ∧ (kt = false → '\t' ∉ i.value.data))
    ∧ ((stepLine kt st l).in_continuation = true →
        KwGoodStr (stepLine kt st l).cur.instruction) := by
  obtain ⟨h1, h2⟩ := h
  simp only [stepLine]
  by_cases hcm : commentMatch l = true
  · simp only [if_pos hcm]
    exact ⟨h1, h2⟩
  · simp only [Bool.not_eq_true] at hcm
    simp only [hcm, Bool.false_eq_true, if_false]
    by_cases hin : st.in_continuation = false
    · simp only [if_pos hin]
      cases hmm : instMatch l with
      | none => exact ⟨h1, h2⟩
      | some kr =>
        obtain ⟨hne, hw, _⟩ := instMatch_spec l kr hmm
        exact finalizeLine_kw_tab kt _ l (kwGood_pyUpper kr.1.data hne hw) h1
    · simp only [if_neg hin]
      have hin' : st.in_continuation = true := by
        cases hb : st.in_continuation
        · exact absurd hb hin
        · rfl
      exact finalizeLine_kw_tab kt _ l (h2 hin') h1

theorem scan_kw_tab (kt : Bool) (data : List String) :
    ∀ i ∈ reconstruct kt data,
      KwGoodStr i.instruction ∧ (kt = false → '\t' ∉ i.value.data) := by
  have h := foldl_stepLine_inv kt
    (fun s => (∀ i ∈ s.instructions,
                 KwGoodStr i.instruction ∧ (kt = false → '\t' ∉ i.value.data))
              ∧ (s.in_continuation = true → KwGoodStr s.cur.instruction))
    data initState
    (by
      refine ⟨?_, ?_⟩
      · intro i hi
        cases hi
      · intro hf
        exact absurd hf Bool.false_ne_true)
    (fun s l _ hs => stepLine_kw_tab kt s l hs)
  exact h.1

theorem finalizeLine_bs (kt : Bool) (st : ScanState) (l : String)
    (hcur : '\\' ∉ st.cur.value.data)
    (hins : ∀ i ∈ st.instructions, '\\' ∉ i.value.data) :
    (∀ i ∈ (finalizeLine kt st l).instructions, '\\' ∉ i.value.data)
    ∧ '\\' ∉ (finalizeLine kt st l).cur.value.data := by
  have hv : '\\' ∉ (if kt then st.cur.value else stripTabs st.cur.value).data := by
    cases kt
    · simp only [Bool.false_eq_true, if_false]
      exact fun hm => hcur (mem_of_mem_stripTabs hm)
    · simpa using hcur
  simp only [finalizeLine]
  by_cases hc : contMatch l = true
  · simp only [if_pos hc]
    exact ⟨hins, hcur⟩
  · simp only [Bool.not_eq_true] at hc
    simp only [hc, Bool.false_eq_true, if_false]
    constructor
    · intro i hi
      simp only [List.mem_append, List.mem_singleton] at hi
      rcases hi with hi | hi
      · exact hins i hi
      · subst hi
        exact hv
    · exact hv

theorem stepLine_bs (kt : Bool) (st : ScanState) (l : String)
    (hl : '\\' ∉ (rstrip_backslash l).data)
    (h : (∀ i ∈ st.instructions, '\\' ∉ i.value.data) ∧ '\\' ∉ st.cur.value.data) :
    (∀ i ∈ (stepLine kt st l).instructions, '\\' ∉ i.value.data)
    ∧ '\\' ∉ (stepLine kt st l).cur.value.data := by
  obtain ⟨h1, h2⟩ := h
  simp only [stepLine]
  by_cases hcm : commentMatch l = true
  · simp only [if_pos hcm]
    exact ⟨h1, h2⟩
  · simp only [Bool.not_eq_true] at hcm
    simp only [hcm, Bool.false_eq_true, if_false]
    by_cases hin : st.in_continuation = false
    · simp only [if_pos hin]
      cases hmm : instMatch l with
      | none => exact ⟨h1, h2⟩
      | some kr =>
        obtain ⟨_, _, hsfx⟩ := instMatch_spec l kr hmm
        exact finalizeLine_bs kt _ l (not_bs_rsbL_of_suffix hsfx hl) h1
    · simp only [if_neg hin]
      have hpiece : '\\' ∉ (if st.cur.value ≠ "" then st.cur.value ++ rstrip_backslash l
          else rstrip_backslash (lstrip l)).data := by
        by_cases hcv : st.cur.value ≠ ""
        · simp only [if_pos hcv, String.data_append]
          intro hm
          rcases List.mem_append.mp hm with hm | hm
          · exact h2 hm
          · exact hl hm
        · simp only [if_neg hcv]
          exact not_bs_rsbL_of_suffix (List.dropWhile_suffix isWS) hl
      exact finalizeLine_bs kt _ l hpiece h1

theorem scan_bs (kt : Bool) (data : List String)
    (hbs : ∀ l ∈ data, '\\' ∉ (rstrip_backslash l).data) :
    ∀ i ∈ reconstruct kt data, '\\' ∉ i.value.data := by
  have h := foldl_stepLine_inv kt
    (fun s => (∀ i ∈ s.instructions, '\\' ∉ i.value.data) ∧ '\\' ∉ s.cur.value.data)
    data initState
    (by
      refine ⟨?_, ?_⟩
      · intro i hi
        cases hi
      · intro hm
        cases hm)
    (fun s l hl hs => stepLine_bs kt s l (hbs l hl) hs)
  exact h.1

/-- Claim C4: every LogicalInstruction emitted by the Reconstructor has a
non-empty keyword of word characters with no lowercase letter left; with
the default configuration its value contains no tab (a tab is preserved
under `--keeptabs`, as the concrete `RUN a\tb` conjuncts show); and when
each input line carries a backslash only as its continuation marker (the
line is backslash-free after `rstrip_backslash`), no backslash survives
into any emitted value. -/
theorem reconstructor_invariants :
    (∀ (kt : Bool) (data : List String) (i : Inst), i ∈ reconstruct kt data →
      KwGoodStr i.instruction
      ∧ (kt = false → '\t' ∉ i.value.data)
      ∧ ((∀ l ∈ data, '\\' ∉ (rstrip_backslash l).data) → '\\' ∉ i.value.data))
    ∧ reconstruct false ["RUN a\tb"] = [⟨"RUN", "ab"⟩]
    ∧ reconstruct true ["RUN a\tb"] = [⟨"RUN", "a\tb"⟩] := by
  refine ⟨?_, by decide, by decide⟩
  intro kt data i hi
  exact ⟨(scan_kw_tab kt data i hi).1, (scan_kw_tab kt data i hi).2,
    fun hbs => scan_bs kt data hbs i hi⟩

/-- Claim C4, witness. -/
theorem reconstructor_invariants_witness :
    (⟨"RUN", "a"⟩ : Inst).instruction ≠ ""
    ∧ '\t' ∉ (⟨"RUN", "a"⟩ : Inst).value.data
    ∧ '\\' ∉ (⟨"RUN", "a"⟩ : Inst).value.data := by
  have h := reconstructor_invariants.1 false ["RUN a"] ⟨"RUN", "a"⟩ (by decide)
  exact ⟨h.1.1, h.2.1 rfl, h.2.2 (by decide)⟩
